import Mathlib

/-!
Verification of the `prime_factorization` numeric core (src/main.rs).

The Rust core consists of three functions over `u64`:

* `Prime::prime(self) -> bool` — trial division primality test.  After the
  base cases it computes `let limit = (self as f64).sqrt() as u64;` and then
  checks `(5..=limit).step_by(6).…all(|&i| self % i != 0 && self % (i + 2) != 0)`.
* `collect_primes(start, end) -> Vec<u64>` — `(start..=end)…filter(|&n| n.prime()).collect()`,
  an order-preserving parallel filter, so the result is the ascending list of
  primes in the inclusive range.
* `factorize(primes) -> HashSet<(u64,u64,u64)>` — for every ordered pair
  `(num1, num2)` of elements of `primes` with `num1 < num2` it inserts
  `(num1 * num2, num1, num2)` into a hash set (the multiplication is wrapping
  64-bit multiplication).

Machine integers are embedded as `ℕ` with explicit `% 2^64` where overflow can
occur (only the product in `factorize`; the absence of overflow elsewhere is
itself proved below).  The `f64` computation in `prime` is embedded exactly:

* `self as f64` (Rust `u64 → f64`) rounds to the nearest double, ties to even.
  For `n < 2^64` the exponent never overflows, so this is rounding `n` to 53
  significant bits: `floatRound`.
* `f64::sqrt` is correctly rounded (IEEE 754): the result is the double
  nearest to the real `√x` (ties to even; a tie is impossible here because
  `√x` is never exactly halfway between doubles when `x` is an integer-valued
  double).  For `x = floatRound n ≤ 2^64` the value `√x` lies in the binade
  `[2^e, 2^(e+1)]` with `e = ⌊log2 x⌋ / 2 ≤ 32`, where consecutive doubles are
  `2^(e-52)` apart, so the correctly rounded square root is
  `(nearest integer to √(x·4^(52-e))) · 2^(e-52)`.
* `as u64` truncates toward zero (never saturates here since the value is at
  most `2^32`).  `f64sqrtFloor` composes the last two steps and returns the
  truncation directly.
-/

/-- Fuel-driven binary integer square root (`isqrtFuel f n = Nat.sqrt n`
whenever `n < 4 ^ f`).  Used instead of `Nat.sqrt` inside executable
definitions so that the kernel can evaluate them on concrete inputs. -/
def isqrtFuel : ℕ → ℕ → ℕ
  | 0, _ => 0
  | f + 1, n =>
    if n < 2 then n
    else
      let r := 2 * isqrtFuel f (n / 4)
      if (r + 1) * (r + 1) ≤ n then r + 1 else r

/-- Integer square root, kernel-evaluable, correct for all `n < 4 ^ 128`
(every use below has `n < 2 ^ 170`). -/
def isqrt (n : ℕ) : ℕ := isqrtFuel 128 n

/-- Fuel-driven base-2 logarithm (`log2Fuel f n = Nat.log2 n` whenever
`n < 2 ^ f`), kernel-evaluable. -/
def log2Fuel : ℕ → ℕ → ℕ
  | 0, _ => 0
  | f + 1, n => if n < 2 then 0 else log2Fuel f (n / 2) + 1

/-- Base-2 logarithm, kernel-evaluable, correct for all `n < 2 ^ 128`
(every use below has `n ≤ 2 ^ 64`). -/
def nlog2 (n : ℕ) : ℕ := log2Fuel 128 n

/-- Rust `n as f64` for `n : u64`: round to nearest double (53 significant
bits), ties to even.  Values below `2^53` are exact. -/
def floatRound (n : ℕ) : ℕ :=
  if n < 2 ^ 53 then n
  else
    let e := nlog2 n - 52
    let q := n / 2 ^ e
    let r := n % 2 ^ e
    if 2 * r < 2 ^ e ∨ (2 * r = 2 ^ e ∧ q % 2 = 0) then q * 2 ^ e else (q + 1) * 2 ^ e

/-- The scale factor `2^(52 - e)` placing the binade of `√m` onto the
integers: doubles near `√m` are exactly the multiples of `2^(e-52)`. -/
def pScale (m : ℕ) : ℕ := 2 ^ (52 - nlog2 m / 2)

/-- The integer nearest to `√M` (no tie is possible: `√M = t + 1/2` would
force `4*M` to be an odd square). -/
def uRound (M : ℕ) : ℕ :=
  if M ≤ isqrt M * isqrt M + isqrt M then isqrt M else isqrt M + 1

/-- `(x.sqrt()) as u64` for a double with integer value `m ≤ 2^64`: the
correctly rounded double square root of `m`, truncated to an integer.
`uRound (m·P²)` is the integer nearest to `√(m·P²) = P·√m`, so dividing by
`P` truncates the correctly rounded square root. -/
def f64sqrtFloor (m : ℕ) : ℕ :=
  uRound (m * pScale m * pScale m) / pScale m

/-- `let limit = (self as f64).sqrt() as u64;` in `Prime::prime`. -/
def limitOf (n : ℕ) : ℕ := f64sqrtFloor (floatRound n)

/-- `(5..=limit).step_by(6).collect::<Vec<u64>>()`: the list
`[5, 11, 17, …]` of all `5 + 6*j ≤ limit`. -/
def scanList (limit : ℕ) : List ℕ :=
  List.range' 5 (if limit < 5 then 0 else (limit - 5) / 6 + 1) 6

/-- `Prime::prime` for `u64` (src/main.rs lines 60-86). -/
def prime (n : ℕ) : Bool :=
  if n < 2 then false
  else if n == 2 || n == 3 then true
  else if n % 2 == 0 || n % 3 == 0 then false
  else (scanList (limitOf n)).all fun i => n % i != 0 && n % (i + 2) != 0

/-- `collect_primes` (src/main.rs lines 89-95): order-preserving parallel
filter of the inclusive range `start..=stop` by `prime`. -/
def collect_primes (start stop : ℕ) : List ℕ :=
  (List.range' start (stop + 1 - start)).filter fun n => prime n

/-- Wrapping 64-bit multiplication (`num1 * num2` on `u64`). -/
def mul64 (a b : ℕ) : ℕ := a * b % 2 ^ 64

/-- `factorize` (src/main.rs lines 97-116): all triples
`(num1 * num2, num1, num2)` over ordered pairs of the input with
`num1 < num2`, collected into a `HashSet`. -/
def factorize (primes : List ℕ) : Finset (ℕ × ℕ × ℕ) :=
  (primes.flatMap fun num1 =>
    primes.filterMap fun num2 =>
      if num1 < num2 then some (mul64 num1 num2, num1, num2) else none).toFinset

/-- Addition refusing to overflow `u64` (a debug-mode Rust `i + 2` panics on
overflow; the checked pipeline returns `none` instead). -/
def checkedAdd (a b : ℕ) : Option ℕ :=
  if a + b < 2 ^ 64 then some (a + b) else none

/-- Remainder refusing a zero divisor (Rust `%` panics on division by zero). -/
def checkedRem (a b : ℕ) : Option ℕ :=
  if b = 0 then none else some (a % b)

/-- One trial-division step of `prime` with every remainder and the `i + 2`
addition checked. -/
def primeStep (n i : ℕ) (acc : Option Bool) : Option Bool :=
  match checkedRem n i, checkedAdd i 2, acc with
  | some r1, some i2, some rest =>
    match checkedRem n i2 with
    | some r2 => some ((r1 != 0 && r2 != 0) && rest)
    | none => none
  | _, _, _ => none

/-- `Prime::prime` with checked arithmetic: `none` would mean an internal
failure path (division by zero or overflow on `i + 2`). -/
def primeChecked (n : ℕ) : Option Bool :=
  if n < 2 then some false
  else if n == 2 || n == 3 then some true
  else if n % 2 == 0 || n % 3 == 0 then some false
  else (scanList (limitOf n)).foldr (primeStep n) (some true)

/-- `collect_primes` built on the checked oracle: `none` would mean some
candidate made the oracle fail internally. -/
def collectPrimesChecked (start stop : ℕ) : Option (List ℕ) :=
  (List.range' start (stop + 1 - start)).foldr
    (fun n acc =>
      match primeChecked n, acc with
      | some b, some l => some (if b then n :: l else l)
      | _, _ => none)
    (some [])

/-! ### `isqrt` agrees with `Nat.sqrt` -/

theorem isqrtFuel_eq (f : ℕ) : ∀ n, n < 4 ^ f → isqrtFuel f n = Nat.sqrt n := by
  induction f with
  | zero =>
    intro n h
    simp only [pow_zero, Nat.lt_one_iff] at h
    subst h
    rfl
  | succ f ih =>
    intro n h
    rw [isqrtFuel]
    by_cases h2 : n < 2
    · interval_cases n <;> simp
    · simp only [h2, if_false]
      have hdiv : n / 4 < 4 ^ f := by
        rw [Nat.div_lt_iff_lt_mul (by norm_num)]
        calc n < 4 ^ (f + 1) := h
        _ = 4 ^ f * 4 := by ring
      rw [ih (n / 4) hdiv]
      set q := Nat.sqrt (n / 4) with hq
      have hq1 : (2 * q) * (2 * q) ≤ n := by
        have h1 : q * q ≤ n / 4 := Nat.sqrt_le _
        calc (2 * q) * (2 * q) = 4 * (q * q) := by ring
        _ ≤ 4 * (n / 4) := by omega
        _ ≤ n := Nat.mul_div_le n 4
      have hq2 : n < (2 * q + 2) * (2 * q + 2) := by
        have h1 : n / 4 < (q + 1) * (q + 1) := Nat.lt_succ_sqrt _
        have h2 : n < 4 * ((q + 1) * (q + 1)) := by
          set A := (q + 1) * (q + 1) with hA
          omega
        calc n < 4 * ((q + 1) * (q + 1)) := h2
        _ = (2 * q + 2) * (2 * q + 2) := by ring
      have hs1 : 2 * q ≤ Nat.sqrt n := Nat.le_sqrt.mpr hq1
      have hs2 : Nat.sqrt n < 2 * q + 2 := by
        by_contra hcon
        push_neg at hcon
        have := Nat.le_sqrt.mp hcon
        omega
      by_cases h3 : (2 * q + 1) * (2 * q + 1) ≤ n
      · have : 2 * q + 1 ≤ Nat.sqrt n := Nat.le_sqrt.mpr h3
        simp only [h3, if_true]
        omega
      · push_neg at h3
        have : Nat.sqrt n < 2 * q + 1 := Nat.sqrt_lt.mpr h3
        simp only [Nat.not_le.mpr h3, if_false]
        omega

theorem isqrt_eq {n : ℕ} (h : n < 4 ^ 128) : isqrt n = Nat.sqrt n :=
  isqrtFuel_eq 128 n h

/-! ### `nlog2` agrees with `Nat.log2` -/

theorem log2Fuel_eq (f : ℕ) : ∀ n, n < 2 ^ f → log2Fuel f n = Nat.log2 n := by
  induction f with
  | zero =>
    intro n h
    simp only [pow_zero, Nat.lt_one_iff] at h
    subst h
    simp [log2Fuel, Nat.log2_zero]
  | succ f ih =>
    intro n h
    rw [log2Fuel]
    by_cases h2 : n < 2
    · interval_cases n <;> simp [Nat.log2]
    · simp only [h2, if_false]
      have hdiv : n / 2 < 2 ^ f := by
        rw [Nat.div_lt_iff_lt_mul (by norm_num)]
        calc n < 2 ^ (f + 1) := h
        _ = 2 ^ f * 2 := by ring
      rw [ih (n / 2) hdiv]
      set k := Nat.log2 (n / 2) with hk
      have hne2 : n / 2 ≠ 0 := by omega
      have hne : n ≠ 0 := by omega
      have hk1 : 2 ^ k ≤ n / 2 := (Nat.le_log2 hne2).mp le_rfl
      have hk2 : n / 2 < 2 ^ (k + 1) := (Nat.log2_lt hne2).mp (Nat.lt_succ_self k)
      have hn1 : 2 ^ (k + 1) ≤ n := by
        have : 2 ^ (k + 1) = 2 ^ k * 2 := pow_succ 2 k
        omega
      have hn2 : n < 2 ^ (k + 2) := by
        have : 2 ^ (k + 2) = 2 ^ (k + 1) * 2 := pow_succ 2 (k + 1)
        have h2k : 2 ^ (k + 1) = 2 ^ k * 2 := pow_succ 2 k
        omega
      have hle : k + 1 ≤ Nat.log2 n := (Nat.le_log2 hne).mpr hn1
      have hlt : Nat.log2 n < k + 2 := (Nat.log2_lt hne).mpr hn2
      omega

theorem nlog2_eq {n : ℕ} (h : n < 2 ^ 128) : nlog2 n = Nat.log2 n :=
  log2Fuel_eq 128 n h

/-! ### Bounds on `floatRound` -/

theorem floatRound_small {n : ℕ} (h : n < 2 ^ 53) : floatRound n = n := by
  rw [floatRound, if_pos h]

theorem floatRound_bounds {n : ℕ} (h : 2 ^ 53 ≤ n) (h64 : n < 2 ^ 64) :
    n ≤ floatRound n + 2 ^ (Nat.log2 n - 53) ∧
    floatRound n ≤ n + 2 ^ (Nat.log2 n - 53) ∧
    2 ^ Nat.log2 n ≤ floatRound n ∧
    floatRound n ≤ 2 ^ (Nat.log2 n + 1) := by
  have hne : n ≠ 0 := by positivity
  have hL : 53 ≤ Nat.log2 n := (Nat.le_log2 hne).mpr h
  set L := Nat.log2 n with hLdef
  have hn1 : 2 ^ L ≤ n := (Nat.le_log2 hne).mp le_rfl
  have hn2 : n < 2 ^ (L + 1) := (Nat.log2_lt hne).mp (Nat.lt_succ_self L)
  rw [floatRound, if_neg (by omega), nlog2_eq (lt_trans h64 (by norm_num)), ← hLdef]
  simp only
  set e := L - 52 with hedef
  set q := n / 2 ^ e with hqdef
  set r := n % 2 ^ e with hrdef
  have hepos : 1 ≤ e := by omega
  have hpow : (0:ℕ) < 2 ^ e := Nat.pos_pow_of_pos e (by norm_num)
  have hqr : 2 ^ e * q + r = n := Nat.div_add_mod n (2 ^ e)
  have hr : r < 2 ^ e := Nat.mod_lt n hpow
  have hq1 : 2 ^ 52 ≤ q := by
    rw [hqdef, Nat.le_div_iff_mul_le hpow, ← pow_add]
    have : 52 + e = L := by omega
    rw [this]; exact hn1
  have hq2 : q < 2 ^ 53 := by
    rw [hqdef, Nat.div_lt_iff_lt_mul hpow, ← pow_add]
    have : 53 + e = L + 1 := by omega
    rw [this]; exact hn2
  have hhalf : 2 ^ e = 2 ^ (e - 1) + 2 ^ (e - 1) := by
    have : 2 ^ (e - 1 + 1) = 2 ^ (e - 1) * 2 := pow_succ 2 (e - 1)
    have he1 : e - 1 + 1 = e := by omega
    rw [he1] at this
    omega
  have hexp : L - 53 = e - 1 := by omega
  rw [hexp]
  have hqr' : q * 2 ^ e + r = n := by rw [mul_comm]; exact hqr
  have hpowL : (2:ℕ) ^ 52 * 2 ^ e = 2 ^ L := by rw [← pow_add]; congr 1; omega
  have hpowL' : (2:ℕ) ^ 53 * 2 ^ e = 2 ^ (L + 1) := by rw [← pow_add]; congr 1; omega
  have hqe : 2 ^ L ≤ q * 2 ^ e := by
    rw [← hpowL]; exact Nat.mul_le_mul_right _ hq1
  have hqe' : (q + 1) * 2 ^ e ≤ 2 ^ (L + 1) := by
    rw [← hpowL']; exact Nat.mul_le_mul_right _ (by omega)
  have hqe2 : q * 2 ^ e + 2 ^ e = (q + 1) * 2 ^ e := by ring
  set Qd := q * 2 ^ e with hQd
  set Qu := (q + 1) * 2 ^ e with hQu
  split_ifs with hc
  · have hr2 : 2 * r ≤ 2 ^ e := by rcases hc with h1 | h1 <;> omega
    omega
  · push_neg at hc
    have hr2 : 2 ^ e ≤ 2 * r := by omega
    omega

/-! ### Bounds on `uRound` and `f64sqrtFloor` -/

theorem uRound_upper {M : ℕ} (hM : M < 4 ^ 128) :
    M ≤ uRound M * uRound M + uRound M := by
  rw [uRound, isqrt_eq hM]
  have h2 : M < (Nat.sqrt M + 1) * (Nat.sqrt M + 1) := Nat.lt_succ_sqrt M
  set t := Nat.sqrt M with ht
  have hexpand : (t + 1) * (t + 1) = t * t + 2 * t + 1 := by ring
  split_ifs with hc
  · exact hc
  · omega

theorem uRound_lower {M : ℕ} (h1 : 1 ≤ M) (hM : M < 4 ^ 128) :
    uRound M * uRound M + 1 ≤ M + uRound M := by
  rw [uRound, isqrt_eq hM]
  set t := Nat.sqrt M with ht
  have htpos : 1 ≤ t := by
    rw [ht, Nat.le_sqrt]; omega
  have h2 : t * t ≤ M := Nat.sqrt_le M
  have hexpand : (t + 1) * (t + 1) = t * t + 2 * t + 1 := by ring
  split_ifs with hc
  · omega
  · push_neg at hc
    omega

theorem pScale_le {m : ℕ} : pScale m ≤ 2 ^ 52 :=
  Nat.pow_le_pow_right (by norm_num) (by omega)

theorem pScale_pos {m : ℕ} : 0 < pScale m := Nat.pos_pow_of_pos _ (by norm_num)

theorem bigM_lt {m : ℕ} (hm : m ≤ 2 ^ 64) : m * pScale m * pScale m < 4 ^ 128 := by
  have h1 : m * pScale m * pScale m ≤ 2 ^ 64 * 2 ^ 52 * 2 ^ 52 :=
    Nat.mul_le_mul (Nat.mul_le_mul hm pScale_le) pScale_le
  calc m * pScale m * pScale m ≤ 2 ^ 64 * 2 ^ 52 * 2 ^ 52 := h1
  _ < 4 ^ 128 := by norm_num

theorem f64sqrtFloor_ge {m a : ℕ} (hm : m ≤ 2 ^ 64)
    (h : a * a * pScale m * pScale m + 1 ≤ m * pScale m * pScale m + a * pScale m) :
    a ≤ f64sqrtFloor m := by
  rw [f64sqrtFloor]
  have hPpos : 0 < pScale m := pScale_pos
  have hup : m * pScale m * pScale m ≤
      uRound (m * pScale m * pScale m) * uRound (m * pScale m * pScale m) +
        uRound (m * pScale m * pScale m) := uRound_upper (bigM_lt hm)
  rw [Nat.le_div_iff_mul_le hPpos]
  by_contra hcon
  push_neg at hcon
  generalize hU : uRound (m * pScale m * pScale m) = u at hup hcon
  generalize hPg : pScale m = P at h hup hcon
  zify at h hup hcon
  nlinarith [mul_nonneg (by linarith : (0:ℤ) ≤ a * P - u - 1)
    (by positivity : (0:ℤ) ≤ (a : ℤ) * P + u), h, hup, hcon]

theorem f64sqrtFloor_lt {m b : ℕ} (hm : m ≤ 2 ^ 64) (hm1 : 1 ≤ m)
    (h : m * pScale m * pScale m + b * pScale m ≤ b * b * pScale m * pScale m) :
    f64sqrtFloor m < b := by
  rw [f64sqrtFloor]
  have hPpos : 0 < pScale m := pScale_pos
  have hM1 : 1 ≤ m * pScale m * pScale m := by
    have := Nat.mul_le_mul (Nat.mul_le_mul hm1 hPpos) hPpos
    simpa using this
  have hup : m * pScale m * pScale m ≤
      uRound (m * pScale m * pScale m) * uRound (m * pScale m * pScale m) +
        uRound (m * pScale m * pScale m) := uRound_upper (bigM_lt hm)
  have hlow : uRound (m * pScale m * pScale m) * uRound (m * pScale m * pScale m) + 1 ≤
      m * pScale m * pScale m + uRound (m * pScale m * pScale m) :=
    uRound_lower hM1 (bigM_lt hm)
  rw [Nat.div_lt_iff_lt_mul hPpos]
  by_contra hcon
  push_neg at hcon
  generalize hU : uRound (m * pScale m * pScale m) = u at hup hlow hcon
  generalize hPg : pScale m = P at h hup hlow hcon hM1
  have hu1 : 1 ≤ u := by nlinarith [hup, hM1]
  zify at h hup hlow hcon hu1
  have hbP : (0:ℤ) ≤ (b : ℤ) * P := by positivity
  nlinarith [mul_nonneg (by linarith : (0:ℤ) ≤ (u : ℤ) - b * P)
    (by linarith : (0:ℤ) ≤ (u : ℤ) + b * P - 1), h, hlow, hcon]

/-! ### The limit is `Nat.sqrt n` or `Nat.sqrt n + 1` -/

theorem sqrt_ge_aux {n L : ℕ} (hL : 53 ≤ L) (hn : 2 ^ L ≤ n) :
    2 ^ (L - 1 - L / 2) + 1 ≤ Nat.sqrt n := by
  set d := L - 1 - L / 2 with hd
  rw [Nat.le_sqrt]
  have e1 : 2 ^ d * 2 ^ d = 2 ^ (2 * d) := by rw [← pow_add]; congr 1; omega
  have e2 := pow_succ 2 d
  have b1 : 2 ^ (2 * d) ≤ 2 ^ (L - 1) := Nat.pow_le_pow_right (by norm_num) (by omega)
  have b2 : 2 ^ (d + 1) ≤ 2 ^ (L - 2) := Nat.pow_le_pow_right (by norm_num) (by omega)
  have b3 : (1:ℕ) ≤ 2 ^ (L - 2) := Nat.one_le_two_pow
  have e3 : 2 ^ (L - 1) = 2 ^ (L - 2) * 2 := by rw [← pow_succ]; congr 1; omega
  have e4 : 2 ^ L = 2 ^ (L - 1) * 2 := by rw [← pow_succ]; congr 1; omega
  have expand : (2 ^ d + 1) * (2 ^ d + 1) = 2 ^ d * 2 ^ d + (2 ^ d + 2 ^ d) + 1 := by
    ring
  omega


theorem inst_lower {s mm H P : ℕ} (hP : 1 ≤ P) (hA : s * s ≤ mm + H)
    (hB : H * P + 1 ≤ s) :
    s * s * P * P + 1 ≤ mm * P * P + s * P := by
  zify at hA hB hP ⊢
  nlinarith [mul_le_mul_of_nonneg_right hA (by positivity : (0:ℤ) ≤ (P:ℤ) * P),
    mul_le_mul_of_nonneg_right hB (by positivity : (0:ℤ) ≤ (P:ℤ))]

theorem inst_upper {s mm H P : ℕ} (hP : 1 ≤ P) (hC : mm ≤ s * s + 2 * s + H)
    (hB : H * P + 1 ≤ s) :
    mm * P * P + (s + 2) * P ≤ (s + 2) * (s + 2) * P * P := by
  zify at hC hB hP ⊢
  nlinarith [mul_le_mul_of_nonneg_right hC (by positivity : (0:ℤ) ≤ (P:ℤ) * P),
    mul_le_mul_of_nonneg_right hB (by positivity : (0:ℤ) ≤ (P:ℤ)),
    mul_nonneg (mul_nonneg (by positivity : (0:ℤ) ≤ (s:ℤ))
      (by positivity : (0:ℤ) ≤ (P:ℤ))) (by linarith : (0:ℤ) ≤ (P:ℤ) - 1),
    mul_nonneg (by positivity : (0:ℤ) ≤ (P:ℤ)) (by linarith : (0:ℤ) ≤ (P:ℤ) - 1)]

theorem limit_bounds {n : ℕ} (h : n < 2 ^ 64) :
    Nat.sqrt n ≤ limitOf n ∧ limitOf n ≤ Nat.sqrt n + 1 := by
  rw [limitOf]
  by_cases hsmall : n < 2 ^ 53
  · rw [floatRound_small hsmall]
    by_cases hn0 : n = 0
    · subst hn0
      constructor
      · simp [Nat.sqrt_zero]
      · have : f64sqrtFloor 0 = 0 := by decide
        omega
    · have hn64 : n ≤ 2 ^ 64 := by omega
      have hn1 : 1 ≤ n := by omega
      have hs1 : 1 ≤ Nat.sqrt n := by rw [Nat.le_sqrt]; omega
      have hss : Nat.sqrt n * Nat.sqrt n ≤ n := Nat.sqrt_le n
      have hs2 : n < (Nat.sqrt n + 1) * (Nat.sqrt n + 1) := Nat.lt_succ_sqrt n
      set s := Nat.sqrt n with hs
      have hexp : (s + 1) * (s + 1) = s * s + 2 * s + 1 := by ring
      constructor
      · exact f64sqrtFloor_ge hn64
          (inst_lower pScale_pos (by omega : s * s ≤ n + 0) (by omega))
      · have hlt : f64sqrtFloor n < s + 2 :=
          f64sqrtFloor_lt hn64 hn1
            (inst_upper pScale_pos (by omega : n ≤ s * s + 2 * s + 0) (by omega))
        omega
  · push_neg at hsmall
    have hne : n ≠ 0 := by positivity
    obtain ⟨hb1, hb2, hb3, hb4⟩ := floatRound_bounds hsmall h
    set L := Nat.log2 n with hLdef
    set m := floatRound n with hmdef
    have hL53 : 53 ≤ L := (Nat.le_log2 hne).mpr hsmall
    have hL63 : L ≤ 63 := by
      have := (Nat.log2_lt hne).mpr h
      omega
    have hnL : 2 ^ L ≤ n := (Nat.le_log2 hne).mp le_rfl
    have hm64 : m ≤ 2 ^ 64 := by
      calc m ≤ 2 ^ (L + 1) := hb4
      _ ≤ 2 ^ 64 := Nat.pow_le_pow_right (by norm_num) (by omega)
    have hone : (1:ℕ) ≤ 2 ^ L := Nat.one_le_two_pow
    have hm1 : 1 ≤ m := by omega
    have hmne : m ≠ 0 := by omega
    have hLm : L ≤ Nat.log2 m := (Nat.le_log2 hmne).mpr hb3
    set d := L - 1 - L / 2 with hd
    have hHP : 2 ^ (L - 53) * pScale m ≤ 2 ^ d := by
      rw [pScale, nlog2_eq (by calc m ≤ 2 ^ 64 := hm64
            _ < 2 ^ 128 := by norm_num), ← pow_add]
      apply Nat.pow_le_pow_right (by norm_num)
      have h1 : L / 2 ≤ Nat.log2 m / 2 := Nat.div_le_div_right hLm
      omega
    have hsd : 2 ^ d + 1 ≤ Nat.sqrt n := sqrt_ge_aux hL53 hnL
    have hss : Nat.sqrt n * Nat.sqrt n ≤ n := Nat.sqrt_le n
    have hs2 : n < (Nat.sqrt n + 1) * (Nat.sqrt n + 1) := Nat.lt_succ_sqrt n
    set s := Nat.sqrt n with hs
    have hexp : (s + 1) * (s + 1) = s * s + 2 * s + 1 := by ring
    set H := 2 ^ (L - 53) with hH
    have hs1 : H * pScale m + 1 ≤ s := by omega
    constructor
    · exact f64sqrtFloor_ge hm64
        (inst_lower pScale_pos (by omega : s * s ≤ m + H) hs1)
    · have hlt : f64sqrtFloor m < s + 2 :=
        f64sqrtFloor_lt hm64 hm1
          (inst_upper pScale_pos (by omega : m ≤ s * s + 2 * s + H) hs1)
      omega

/-! ### Correctness of `prime` -/

theorem mem_scanList {limit i : ℕ} :
    i ∈ scanList limit ↔ 5 ≤ i ∧ i ≤ limit ∧ i % 6 = 5 := by
  rw [scanList]
  split_ifs with hl
  · simp only [List.range'_zero, List.not_mem_nil, false_iff]
    omega
  · rw [List.mem_range']
    constructor
    · rintro ⟨j, hj, rfl⟩
      omega
    · rintro ⟨h5, hle, hmod⟩
      exact ⟨(i - 5) / 6, by omega, by omega⟩

theorem prime_correct {n : ℕ} (h : n < 2 ^ 64) : prime n = true ↔ Nat.Prime n := by
  rw [prime]
  split_ifs with h1 h2 h3
  · simp only [Bool.false_eq_true, false_iff]
    intro hp
    exact absurd hp.two_le (by omega)
  · simp only [Bool.or_eq_true, beq_iff_eq] at h2
    simp only [true_iff]
    rcases h2 with rfl | rfl
    · exact Nat.prime_two
    · exact Nat.prime_three
  · simp only [Bool.or_eq_true, beq_iff_eq] at h2 h3
    push_neg at h2
    simp only [Bool.false_eq_true, false_iff]
    intro hp
    rcases h3 with hm | hm
    · have hdvd : 2 ∣ n := (Nat.dvd_iff_mod_eq_zero).mpr hm
      rcases hp.eq_one_or_self_of_dvd 2 hdvd with h' | h' <;> omega
    · have hdvd : 3 ∣ n := (Nat.dvd_iff_mod_eq_zero).mpr hm
      rcases hp.eq_one_or_self_of_dvd 3 hdvd with h' | h' <;> omega
  · simp only [Bool.or_eq_true, beq_iff_eq] at h2 h3
    push_neg at h2 h3
    obtain ⟨hm2, hm3⟩ := h3
    have hn5 : 5 ≤ n := by omega
    have hlim := limit_bounds h
    rw [List.all_eq_true]
    constructor
    · intro hall
      by_contra hnp
      have hn1 : n ≠ 1 := by omega
      have hp := Nat.minFac_prime hn1
      have hd := Nat.minFac_dvd n
      have hsq : Nat.minFac n ^ 2 ≤ n := Nat.minFac_sq_le_self (by omega) hnp
      set p := Nat.minFac n with hpdef
      have hp2 : 2 ≤ p := hp.two_le
      have hpmodn : n % p = 0 := (Nat.dvd_iff_mod_eq_zero).mp hd
      have hpne2 : p ≠ 2 := by
        intro he
        rw [he] at hpmodn
        exact hm2 hpmodn
      have hpne3 : p ≠ 3 := by
        intro he
        rw [he] at hpmodn
        exact hm3 hpmodn
      have hpne4 : p ≠ 4 := by
        rintro h4
        rw [h4] at hp
        norm_num at hp
      have hp5 : 5 ≤ p := by omega
      have hpodd : p % 2 ≠ 0 := by
        intro he
        have h2p : 2 ∣ p := (Nat.dvd_iff_mod_eq_zero).mpr he
        have : 2 ∣ n := dvd_trans h2p hd
        exact hm2 ((Nat.dvd_iff_mod_eq_zero).mp this)
      have hp3 : p % 3 ≠ 0 := by
        intro he
        have h3p : 3 ∣ p := (Nat.dvd_iff_mod_eq_zero).mpr he
        have : 3 ∣ n := dvd_trans h3p hd
        exact hm3 ((Nat.dvd_iff_mod_eq_zero).mp this)
      have hple : p ≤ Nat.sqrt n := by
        rw [Nat.le_sqrt]
        rw [pow_two] at hsq
        exact hsq
      have hmod6 : p % 6 = 1 ∨ p % 6 = 5 := by omega
      rcases hmod6 with h6 | h6
    -- p ≡ 1 (mod 6): the scan reaches p as `i + 2` for i = p - 2
      · have hi : (p - 2) ∈ scanList (limitOf n) :=
          mem_scanList.mpr ⟨by omega, by omega, by omega⟩
        have hpred := hall _ hi
        simp only [Bool.and_eq_true, bne_iff_ne, ne_eq] at hpred
        have hp2eq : p - 2 + 2 = p := by omega
        rw [hp2eq] at hpred
        exact hpred.2 hpmodn
    -- p ≡ 5 (mod 6): the scan reaches p directly
      · have hi : p ∈ scanList (limitOf n) :=
          mem_scanList.mpr ⟨hp5, by omega, h6⟩
        have hpred := hall _ hi
        simp only [Bool.and_eq_true, bne_iff_ne, ne_eq] at hpred
        exact hpred.1 hpmodn
    · intro hp i hi
      obtain ⟨hi5, hile, himod⟩ := mem_scanList.mp hi
      have hl5 : 5 ≤ limitOf n := le_trans hi5 hile
      have hsqrt4 : 4 ≤ Nat.sqrt n := by omega
      have hss : Nat.sqrt n * Nat.sqrt n ≤ n := Nat.sqrt_le n
      have h4s : 4 * Nat.sqrt n ≤ Nat.sqrt n * Nat.sqrt n :=
        Nat.mul_le_mul_right _ hsqrt4
      have hsn : Nat.sqrt n + 3 < n := by omega
      have hin : i < n ∧ i + 2 < n := by omega
      simp only [Bool.and_eq_true, bne_iff_ne, ne_eq]
      constructor
      · intro he
        have hdvd : i ∣ n := (Nat.dvd_iff_mod_eq_zero).mpr he
        rcases hp.eq_one_or_self_of_dvd i hdvd with h' | h' <;> omega
      · intro he
        have hdvd : i + 2 ∣ n := (Nat.dvd_iff_mod_eq_zero).mpr he
        rcases hp.eq_one_or_self_of_dvd (i + 2) hdvd with h' | h' <;> omega

/-! ### `collect_primes`: membership, order, emptiness -/

theorem mem_collect_primes {s e n : ℕ} :
    n ∈ collect_primes s e ↔ s ≤ n ∧ n ≤ e ∧ prime n = true := by
  rw [collect_primes, List.mem_filter, List.mem_range']
  constructor
  · rintro ⟨⟨j, hj, rfl⟩, hp⟩
    exact ⟨by omega, by omega, hp⟩
  · rintro ⟨h1, h2, hp⟩
    exact ⟨⟨n - s, by omega, by omega⟩, hp⟩

theorem sorted_range' (s n step : ℕ) (h : 0 < step) :
    (List.range' s n step).Pairwise (· < ·) := by
  cases n with
  | zero => simp
  | succ n =>
    rw [List.range'_succ]
    exact List.chain_iff_pairwise.mp (List.chain_lt_range' s n h)

theorem collect_primes_sorted (s e : ℕ) : (collect_primes s e).Sorted (· < ·) :=
  List.Pairwise.filter _ (sorted_range' s (e + 1 - s) 1 one_pos)

theorem collect_primes_empty {s e : ℕ} (h : e < s) : collect_primes s e = [] := by
  rw [collect_primes]
  have : e + 1 - s = 0 := by omega
  rw [this]
  rfl

/-! ### `factorize`: membership, canonical form, cardinality -/

theorem mem_factorize {primes : List ℕ} {t : ℕ × ℕ × ℕ} :
    t ∈ factorize primes ↔
      ∃ a ∈ primes, ∃ b ∈ primes, a < b ∧ t = (mul64 a b, a, b) := by
  rw [factorize, List.mem_toFinset, List.mem_flatMap]
  constructor
  · rintro ⟨a, ha, hmem⟩
    rw [List.mem_filterMap] at hmem
    obtain ⟨b, hb, hfb⟩ := hmem
    by_cases hab : a < b
    · rw [if_pos hab] at hfb
      exact ⟨a, ha, b, hb, hab, (Option.some_inj.mp hfb).symm⟩
    · rw [if_neg hab] at hfb
      exact absurd hfb (by simp)
  · rintro ⟨a, ha, b, hb, hab, rfl⟩
    exact ⟨a, ha, List.mem_filterMap.mpr ⟨b, hb, by rw [if_pos hab]⟩⟩

theorem factorize_eq_image (l : List ℕ) :
    factorize l = ((l.toFinset ×ˢ l.toFinset).filter fun p => p.1 < p.2).image
      fun p => (mul64 p.1 p.2, p.1, p.2) := by
  ext t
  rw [mem_factorize, Finset.mem_image]
  constructor
  · rintro ⟨a, ha, b, hb, hab, rfl⟩
    exact ⟨(a, b), Finset.mem_filter.mpr
      ⟨Finset.mem_product.mpr ⟨List.mem_toFinset.mpr ha, List.mem_toFinset.mpr hb⟩, hab⟩, rfl⟩
  · rintro ⟨⟨a, b⟩, hp, rfl⟩
    obtain ⟨hprod, hab⟩ := Finset.mem_filter.mp hp
    obtain ⟨ha, hb⟩ := Finset.mem_product.mp hprod
    exact ⟨a, List.mem_toFinset.mp ha, b, List.mem_toFinset.mp hb, hab, rfl⟩

theorem card_lt_filter_product (F : Finset ℕ) :
    ((F ×ˢ F).filter fun p => p.1 < p.2).card = F.card * (F.card - 1) / 2 := by
  set A := (F ×ˢ F).filter fun p => p.1 < p.2 with hA
  set B := (F ×ˢ F).filter fun p => p.2 < p.1 with hB
  have hcardeq : A.card = B.card := by
    apply Finset.card_bij fun (p : ℕ × ℕ) _ => Prod.swap p
    · intro p hp
      rw [hA, Finset.mem_filter, Finset.mem_product] at hp
      rw [hB, Finset.mem_filter, Finset.mem_product]
      exact ⟨⟨hp.1.2, hp.1.1⟩, hp.2⟩
    · intro p1 _ p2 _ he
      exact Prod.swap_injective he
    · intro p hp
      rw [hB, Finset.mem_filter, Finset.mem_product] at hp
      refine ⟨Prod.swap p, ?_, Prod.swap_swap p⟩
      rw [hA, Finset.mem_filter, Finset.mem_product]
      exact ⟨⟨hp.1.2, hp.1.1⟩, hp.2⟩
  have hunion : A ∪ B = F.offDiag := by
    ext p
    simp only [hA, hB, Finset.mem_union, Finset.mem_filter, Finset.mem_product,
      Finset.mem_offDiag]
    constructor
    · rintro (⟨⟨h1, h2⟩, hlt⟩ | ⟨⟨h1, h2⟩, hlt⟩) <;> exact ⟨h1, h2, by omega⟩
    · rintro ⟨h1, h2, hne⟩
      rcases Nat.lt_or_ge p.1 p.2 with hl | hl
      · exact Or.inl ⟨⟨h1, h2⟩, hl⟩
      · exact Or.inr ⟨⟨h1, h2⟩, by omega⟩
  have hdisj : Disjoint A B := by
    rw [Finset.disjoint_left]
    intro p hpA hpB
    rw [hA, Finset.mem_filter] at hpA
    rw [hB, Finset.mem_filter] at hpB
    omega
  have hsum : A.card + B.card = F.offDiag.card := by
    rw [← hunion, Finset.card_union_of_disjoint hdisj]
  have hoff : F.offDiag.card = F.card * F.card - F.card := Finset.offDiag_card F
  have hfc : F.card * F.card - F.card = F.card * (F.card - 1) := by
    cases hc : F.card with
    | zero => simp
    | succ k =>
      have : (k + 1) * (k + 1) = (k + 1) * k + (k + 1) := by ring
      simp only [Nat.succ_sub_one]
      omega
  omega

theorem factorize_card {l : List ℕ} (h : l.Nodup) :
    (factorize l).card = l.length * (l.length - 1) / 2 := by
  rw [factorize_eq_image, Finset.card_image_of_injOn, card_lt_filter_product,
    List.toFinset_card_of_nodup h]
  intro p1 _ p2 _ he
  simp only [Prod.mk.injEq] at he
  exact Prod.ext he.2.1 he.2.2

/-! ### Arithmetic safety of the scan, and totality of the checked pipeline -/

theorem scan_safe {n : ℕ} (h : n < 2 ^ 64) :
    ∀ i ∈ scanList (limitOf n), 5 ≤ i ∧ i + 2 < 2 ^ 64 := by
  intro i hi
  obtain ⟨h5, hle, _⟩ := mem_scanList.mp hi
  have hlim := (limit_bounds h).2
  have hs : Nat.sqrt n < 2 ^ 32 := by
    rw [Nat.sqrt_lt]
    calc n < 2 ^ 64 := h
    _ = 2 ^ 32 * 2 ^ 32 := by norm_num
  omega

theorem primeStep_some {n i : ℕ} (h5 : 5 ≤ i) (hov : i + 2 < 2 ^ 64) (b : Bool) :
    primeStep n i (some b) = some ((n % i != 0 && n % (i + 2) != 0) && b) := by
  have h0 : ¬ i = 0 := by omega
  have h02 : ¬ i + 2 = 0 := by omega
  have hov' : i + 2 < 18446744073709551616 := by omega
  simp [primeStep, checkedRem, checkedAdd, h0, h02, hov']

theorem primeChecked_eq {n : ℕ} (h : n < 2 ^ 64) : primeChecked n = some (prime n) := by
  rw [primeChecked, prime]
  split_ifs
  · rfl
  · rfl
  · rfl
  · have hsafe := scan_safe h
    generalize scanList (limitOf n) = l at hsafe
    induction l with
    | nil => rfl
    | cons x xs ih =>
      have hx := hsafe x (by simp)
      rw [List.foldr_cons, List.all_cons,
        ih fun i hi => hsafe i (by simp [hi]),
        primeStep_some hx.1 hx.2]

theorem collectPrimesChecked_eq {s e : ℕ} (he : e < 2 ^ 64) :
    collectPrimesChecked s e = some (collect_primes s e) := by
  rw [collectPrimesChecked, collect_primes]
  have hsafe : ∀ n ∈ List.range' s (e + 1 - s), n < 2 ^ 64 := by
    intro n hn
    rw [List.mem_range'] at hn
    obtain ⟨j, hj, rfl⟩ := hn
    omega
  generalize List.range' s (e + 1 - s) 1 = l at hsafe
  induction l with
  | nil => rfl
  | cons x xs ih =>
    have hx := hsafe x (by simp)
    rw [List.foldr_cons, List.filter_cons,
      ih fun i hi => hsafe i (by simp [hi]),
      primeChecked_eq hx]

/-! ### Claims -/

set_option maxRecDepth 10000

/-- Claim C1: for every u64 `n`, the primality oracle `prime n` returns `true`
if and only if `n` is prime, i.e. `n` is greater than 1 and has no divisors
other than 1 and itself. -/
theorem claim1_prime_oracle (n : ℕ) (h : n < 2 ^ 64) :
    prime n = true ↔ 1 < n ∧ ∀ d, d ∣ n → d = 1 ∨ d = n := by
  rw [prime_correct h, Nat.prime_def]
  constructor
  · rintro ⟨h1, h2⟩
    exact ⟨by omega, h2⟩
  · rintro ⟨h1, h2⟩
    exact ⟨by omega, h2⟩

/-- Witness for C1 at `n = 97`: the oracle answers `true` and 97 is prime. -/
theorem claim1_witness : 1 < 97 ∧ ∀ d, d ∣ 97 → d = 1 ∨ d = 97 :=
  (claim1_prime_oracle 97 (by norm_num)).mp (by decide)

/-- Counterexample to C2: `n = 2^64 - 3` reaches the trial-division stage
(`n ≥ 5`, odd, not divisible by 3), but the float-computed bound is `2^32`
while the exact integer square root is `2^32 - 1`: converting `n` to `f64`
rounds up to `2^64`, whose square root is exactly `2^32`. -/
theorem claim2_counterexample :
    5 ≤ 2 ^ 64 - 3 ∧ (2 ^ 64 - 3) % 2 = 1 ∧ (2 ^ 64 - 3) % 3 = 1 ∧
    limitOf (2 ^ 64 - 3) = 2 ^ 32 ∧ Nat.sqrt (2 ^ 64 - 3) = 2 ^ 32 - 1 := by
  refine ⟨by norm_num, by norm_num, by norm_num, by decide, ?_⟩
  rw [← isqrt_eq (by norm_num : (2:ℕ) ^ 64 - 3 < 4 ^ 128)]
  decide

/-- Claim C2 (amended): for every u64 `n` reaching the trial-division stage,
the divisor-scan bound is `Nat.sqrt n` or `Nat.sqrt n + 1` — it can exceed the
exact integer square root by one (harmless over-testing), but never
undershoots it. -/
theorem claim2_limit_within_one (n : ℕ) (h64 : n < 2 ^ 64) (_h5 : 5 ≤ n)
    (_h2 : n % 2 ≠ 0) (_h3 : n % 3 ≠ 0) :
    Nat.sqrt n ≤ limitOf n ∧ limitOf n ≤ Nat.sqrt n + 1 :=
  limit_bounds h64

/-- Witness for the amended C2 at `n = 97`. -/
theorem claim2_witness : Nat.sqrt 97 ≤ limitOf 97 ∧ limitOf 97 ≤ Nat.sqrt 97 + 1 :=
  claim2_limit_within_one 97 (by norm_num) (by norm_num) (by norm_num) (by norm_num)

/-- Claim C3: `factorize primes` is exactly the set of triples
`(a * b mod 2^64, a, b)` over pairs of input elements with `a < b`; hence
every output triple has lesser factor strictly below the greater one, and the
two orientations of a pair never both appear. -/
theorem claim3_factorize_pairs (primes : List ℕ) :
    (∀ t, t ∈ factorize primes ↔
      ∃ a ∈ primes, ∃ b ∈ primes, a < b ∧ t = (mul64 a b, a, b)) ∧
    (∀ x a b, (x, a, b) ∈ factorize primes → a < b) ∧
    (∀ x a b, (x, a, b) ∈ factorize primes → (x, b, a) ∉ factorize primes) := by
  have hlt : ∀ x a b, (x, a, b) ∈ factorize primes → a < b := by
    intro x a b hm
    obtain ⟨a', _, b', _, hab, he⟩ := mem_factorize.mp hm
    simp only [Prod.mk.injEq] at he
    omega
  refine ⟨fun t => mem_factorize, hlt, fun x a b hm hm' => ?_⟩
  have h1 := hlt x a b hm
  have h2 := hlt x b a hm'
  omega

/-- Witness for C3 on the input `[2, 3]`. -/
theorem claim3_witness : (6, 2, 3) ∈ factorize [2, 3] ∧ (6, 3, 2) ∉ factorize [2, 3] :=
  ⟨by decide, (claim3_factorize_pairs [2, 3]).2.2 6 2 3 (by decide)⟩

/-- Claim C4: `collect_primes start end` is exactly the integers of the
inclusive range accepted by the oracle, in strictly ascending order; an empty
range (`start > end`) yields the empty list. -/
theorem claim4_collect_primes_spec (s e : ℕ) :
    (∀ n, n ∈ collect_primes s e ↔ s ≤ n ∧ n ≤ e ∧ prime n = true) ∧
    (collect_primes s e).Sorted (· < ·) ∧
    (e < s → collect_primes s e = []) :=
  ⟨fun _ => mem_collect_primes, collect_primes_sorted s e, fun h => collect_primes_empty h⟩

/-- Witness for C4: an inverted range is empty, and 7 is collected in [0,10]. -/
theorem claim4_witness : collect_primes 5 2 = [] ∧ 7 ∈ collect_primes 0 10 :=
  ⟨(claim4_collect_primes_spec 5 2).2.2 (by norm_num),
   ((claim4_collect_primes_spec 0 10).1 7).mpr ⟨by norm_num, by norm_num, by decide⟩⟩

/-- Claim C5: on an input of length `p` with pairwise distinct values the
output set has exactly `p * (p - 1) / 2` elements. -/
theorem claim5_factorize_card (primes : List ℕ) (h : primes.Nodup) :
    (factorize primes).card = primes.length * (primes.length - 1) / 2 :=
  factorize_card h

/-- Witness for C5 on `[2, 3, 5, 7]` (which is `Nodup`): 6 pairs. -/
theorem claim5_witness :
    (factorize [2, 3, 5, 7]).card = [2, 3, 5, 7].length * ([2, 3, 5, 7].length - 1) / 2 :=
  claim5_factorize_card [2, 3, 5, 7] (by decide)

/-- Claim C6: `collect_primes 0 100` is exactly the 25 primes up to 100 in
ascending order. -/
theorem claim6_collect_primes_0_100 :
    collect_primes 0 100 = [2, 3, 5, 7, 11, 13, 17, 19, 23, 29, 31, 37, 41, 43,
      47, 53, 59, 61, 67, 71, 73, 79, 83, 89, 97] := by
  decide

/-- Claim C7: `factorize [2, 3, 5, 7]` is exactly the six canonical triples. -/
theorem claim7_factorize_first_primes :
    factorize [2, 3, 5, 7] =
      {(6, 2, 3), (10, 2, 5), (14, 2, 7), (15, 3, 5), (21, 3, 7), (35, 5, 7)} := by
  decide

/-- Claim C8: the pipeline is total — with every remainder and the `i + 2`
addition checked, `collect_primes` still produces its (unique) result for any
valid u64 bounds, and `factorize` on its output produces triples that stay
within u64 (the product being reduced mod `2^64` by the accepted wrapping
multiplication). -/
theorem claim8_pipeline_total (s e : ℕ) (_hse : s ≤ e) (he : e < 2 ^ 64) :
    collectPrimesChecked s e = some (collect_primes s e) ∧
    ∀ t ∈ factorize (collect_primes s e),
      t.1 < 2 ^ 64 ∧ t.2.1 < 2 ^ 64 ∧ t.2.2 < 2 ^ 64 := by
  refine ⟨collectPrimesChecked_eq he, fun t ht => ?_⟩
  obtain ⟨a, ha, b, hb, hab, rfl⟩ := mem_factorize.mp ht
  obtain ⟨_, hae, _⟩ := mem_collect_primes.mp ha
  obtain ⟨_, hbe, _⟩ := mem_collect_primes.mp hb
  refine ⟨?_, ?_, ?_⟩
  · show mul64 a b < 2 ^ 64
    simp only [mul64]
    exact Nat.mod_lt _ (by norm_num)
  · show a < 2 ^ 64
    omega
  · show b < 2 ^ 64
    omega

/-- Witness for C8 on the range [0, 10]. -/
theorem claim8_witness : collectPrimesChecked 0 10 = some (collect_primes 0 10) :=
  (claim8_pipeline_total 0 10 (by norm_num) (by norm_num)).1

/-- Claim C9: `factorize` depends only on the set of values of its input —
two inputs with the same `toFinset` give equal outputs, whatever the order
and multiplicities. -/
theorem claim9_factorize_set_invariance (l1 l2 : List ℕ)
    (h : l1.toFinset = l2.toFinset) : factorize l1 = factorize l2 := by
  have hmem : ∀ x : ℕ, x ∈ l1 ↔ x ∈ l2 := fun x => by
    rw [← List.mem_toFinset, ← List.mem_toFinset, h]
  ext t
  rw [mem_factorize, mem_factorize]
  constructor <;> rintro ⟨a, ha, b, hb, hab, rfl⟩
  · exact ⟨a, (hmem a).mp ha, b, (hmem b).mp hb, hab, rfl⟩
  · exact ⟨a, (hmem a).mpr ha, b, (hmem b).mpr hb, hab, rfl⟩

/-- Witness for C9: a permuted input with duplicates gives the same set. -/
theorem claim9_witness : factorize [2, 3, 3, 2] = factorize [3, 2] :=
  claim9_factorize_set_invariance [2, 3, 3, 2] [3, 2] (by decide)

/-- Claim C10: for every u64 `n`, every trial divisor `i` of the scan in
`prime` satisfies `5 ≤ i` (so both remainder divisors `i` and `i + 2` are at
least 5, never zero), and `i + 2` never overflows u64 because `i` is bounded
by the square-root-based limit. -/
theorem claim10_prime_scan_safe (n : ℕ) (h : n < 2 ^ 64) :
    ∀ i ∈ scanList (limitOf n), 5 ≤ i ∧ 5 ≤ i + 2 ∧ i + 2 < 2 ^ 64 := by
  intro i hi
  obtain ⟨h1, h2⟩ := scan_safe h i hi
  exact ⟨h1, by omega, h2⟩

/-- Witness for C10 at `n = 49` and its (only) trial divisor `i = 5`. -/
theorem claim10_witness : 5 ≤ 5 ∧ 5 ≤ 5 + 2 ∧ 5 + 2 < 2 ^ 64 :=
  claim10_prime_scan_safe 49 (by norm_num) 5 (by decide)
